import Mathlib

/-!
Shallow embedding of the buffered file reader (`HandleFileReader`) and the
line-indexing parser (`FileLines`) from `src/gui/Src/Gui/SourceView.cpp`.

A file is modelled as its byte sequence (`List Nat`, each entry one byte).
All `uint64_t`/`size_t` arithmetic from the source is modelled on `Nat`
with explicit reduction modulo `2^64` exactly where the machine wraps.
The Win32 layer (`SetFilePointerEx`/`ReadFile` on a disk file opened for
reading) is modelled as: positioning fails when the sign-extended position
is negative (`index ≥ 2^63`), and an in-bounds read delivers the available
bytes of the requested range and succeeds.
-/

namespace SourceView

/-- 2^64, the modulus of the 64-bit unsigned arithmetic used by the reader. -/
def W64 : Nat := 2 ^ 64

/-- 64-bit unsigned addition (`uint64_t` overflow wraps). -/
def wadd (a b : Nat) : Nat := (a + b) % W64

/-- 64-bit unsigned subtraction (`uint64_t` underflow wraps). -/
def wsub (a b : Nat) : Nat := (a + (W64 - b % W64)) % W64

/-- `std::vector<char>::resize` / `std::string::resize`: keep the first `n`
bytes, value-initialise (zero) any newly created bytes. -/
def resizeBytes (s : List Nat) (n : Nat) : List Nat :=
  s.take n ++ List.replicate (n - s.length) 0

/-- `IBufferedFileReader::Direction`. -/
inductive Direction where
  | Right
  | Left
deriving DecidableEq, Repr

/-- State of a `HandleFileReader`. `file` is the byte content of the
underlying OS file; `handleValid` models `mHandle != INVALID_HANDLE_VALUE`. -/
structure HandleFileReader where
  file : List Nat
  handleValid : Bool
  mFileSize : Nat
  mBuffer : List Nat
  mBufferIndex : Nat
  mBufferSize : Nat
  mBufferDirection : Direction
deriving DecidableEq, Repr

/-- `HandleFileReader::isopen`. -/
def HandleFileReader.isopen (r : HandleFileReader) : Bool :=
  r.handleValid

/-- `HandleFileReader::size` (returns `mFileSize`). -/
def HandleFileReader.size (r : HandleFileReader) : Nat :=
  r.mFileSize

/-- `HandleFileReader::setbuffersize`: clamps to the file size. -/
def HandleFileReader.setbuffersize (r : HandleFileReader) (size : Nat) : HandleFileReader :=
  { r with mBufferSize := min size r.mFileSize }

/-- `HandleFileReader::setbufferdirection`. -/
def HandleFileReader.setbufferdirection (r : HandleFileReader) (d : Direction) : HandleFileReader :=
  { r with mBufferDirection := d }

/-- `HandleFileReader::readnobuffer`: `SetFilePointerEx` + `ReadFile`.
Returns `none` on failure, `some bytes` with the bytes written to `dest`
on success.  Positioning fails when the position, reinterpreted as a
signed 64-bit offset, is negative; an in-range read past end-of-file
simply delivers the bytes that exist (and reports success). -/
def HandleFileReader.readnobuffer (r : HandleFileReader) (index size : Nat) : Option (List Nat) :=
  if r.isopen = true then
    if 2 ^ 63 ≤ index % W64 then none
    else some ((r.file.drop (index % W64)).take size)
  else none

/-- Result of `HandleFileReader::read`: success flag, post-state (the
buffer may have been refilled or clobbered), bytes written to `dest`,
and the number of underlying positioned-I/O attempts made. -/
structure ReadResult where
  ok : Bool
  rdr : HandleFileReader
  dest : List Nat
  io : Nat
deriving DecidableEq, Repr

/-- Result of the buffer-refill step inside `HandleFileReader::read`. -/
structure RefillResult where
  ok : Bool
  rdr : HandleFileReader
  io : Nat
deriving DecidableEq, Repr

/-- The refill step of `HandleFileReader::read`: if the requested range is
not fully covered by the current buffer window, a new window starting at
`index` of size `min(mBufferSize, mFileSize - index)` is read in one I/O
call.  On a failed refill the resized buffer and the new `mBufferIndex`
remain in place, exactly as in the source. -/
def HandleFileReader.refill (r : HandleFileReader) (index size : Nat) : RefillResult :=
  if index < r.mBufferIndex ∨ wadd index size > wadd r.mBufferIndex r.mBuffer.length then
    let bufferSize := min r.mBufferSize (wsub r.mFileSize index)
    let resized := resizeBytes r.mBuffer bufferSize
    let r1 : HandleFileReader := { r with mBuffer := resized, mBufferIndex := index % W64 }
    match r1.readnobuffer r1.mBufferIndex r1.mBuffer.length with
    | none => ⟨false, r1, 1⟩
    | some bytes => ⟨true, { r1 with mBuffer := bytes ++ resized.drop bytes.length }, 1⟩
  else ⟨true, r, 0⟩

/-- `HandleFileReader::read`.  The guard `index + size > mFileSize` is the
source's `uint64_t` comparison, so the sum wraps modulo `2^64`. -/
def HandleFileReader.read (r : HandleFileReader) (index size : Nat) : ReadResult :=
  if wadd index size > r.mFileSize then ⟨false, r, [], 0⟩
  else if size > r.mBufferSize then
    match r.readnobuffer index size with
    | none => ⟨false, r, [], 1⟩
    | some bytes => ⟨true, r, bytes, 1⟩
  else
    let rf := r.refill index size
    if rf.ok = false then ⟨false, rf.rdr, [], rf.io⟩
    else if size = 1 then
      ⟨true, rf.rdr, [rf.rdr.mBuffer.getD (wsub index rf.rdr.mBufferIndex) 0], rf.io⟩
    else
      ⟨true, rf.rdr, (rf.rdr.mBuffer.drop (wsub index rf.rdr.mBufferIndex)).take size, rf.io⟩

/-- `IBufferedFileReader::readchar`: a single-byte `read`. -/
def HandleFileReader.readchar (r : HandleFileReader) (index : Nat) : Option Nat × HandleFileReader :=
  let res := r.read index 1
  (if res.ok = true then some (res.dest.getD 0 0) else none, res.rdr)

/-- `IBufferedFileReader::readstring`: `str.resize(size)` followed by a
`read` into the resized storage.  The result string is the bytes the read
wrote, followed by whatever the resize left in the untouched tail. -/
def HandleFileReader.readstring (r : HandleFileReader) (index size : Nat) (old : List Nat) :
    Bool × List Nat × HandleFileReader :=
  let res := r.read index size
  (res.ok, res.dest ++ (resizeBytes old size).drop res.dest.length, res.rdr)

/-- The `HandleFileReader` constructor.  `openOk` models whether
`CreateFileW` succeeds, `sizeOk` whether `GetFileSizeEx` succeeds.  The
second component records whether an OS handle is left open but unowned
(leaked): it never is, because a size failure immediately runs
`CloseHandle`. -/
def HandleFileReader.construct (file : List Nat) (openOk sizeOk : Bool) :
    HandleFileReader × Bool :=
  if openOk = true then
    if sizeOk = true then
      ({ file := file, handleValid := true, mFileSize := file.length,
         mBuffer := [], mBufferIndex := 0, mBufferSize := 0,
         mBufferDirection := Direction.Right }, false)
    else
      ({ file := file, handleValid := false, mFileSize := W64 - 1,
         mBuffer := [], mBufferIndex := 0, mBufferSize := 0,
         mBufferDirection := Direction.Right }, false)
  else
    ({ file := file, handleValid := false, mFileSize := W64 - 1,
       mBuffer := [], mBufferIndex := 0, mBufferSize := 0,
       mBufferDirection := Direction.Right }, false)

/-- `FileLines`: the line-offset table plus the owned reader
(`std::unique_ptr<IBufferedFileReader>`, `none` when null). -/
structure FileLines where
  mLines : List Nat
  mReader : Option HandleFileReader
deriving Repr

/-- `FileLines::isopen`. -/
def FileLines.isopen (fl : FileLines) : Bool :=
  match fl.mReader with
  | none => false
  | some r => r.isopen

/-- A freshly constructed `FileLines` (`new FileLines()`). -/
def FileLines.empty : FileLines := ⟨[], none⟩

/-- `FileLines::open`: fails if already open, otherwise constructs a new
`HandleFileReader` and returns its open state.  The final component is
the constructor's leaked-handle flag. -/
def FileLines.open (fl : FileLines) (file : List Nat) (openOk sizeOk : Bool) :
    Bool × FileLines × Bool :=
  if fl.isopen = true then (false, fl, false)
  else
    let c := HandleFileReader.construct file openOk sizeOk
    (c.1.isopen, { fl with mReader := some c.1 }, c.2)

/-- The scan loop of `FileLines::parse`, fuelled by the number of bytes
left to scan (`filesize - i`).  Carries the running state
`(i, curIndex, curSize)` and the offsets pushed so far (`acc`); on a
failed byte read it returns `false` with the partially built table, as
the source does. -/
def parseLoop : Nat → HandleFileReader → Nat → Nat → Nat → List Nat →
    Bool × List Nat × HandleFileReader
  | 0, rd, i, curIndex, curSize, acc =>
    (true, (if 0 < curSize then acc ++ [curIndex] else acc) ++ [i + 1], rd)
  | n + 1, rd, i, curIndex, curSize, acc =>
    match rd.readchar i with
    | (none, rd1) => (false, acc, rd1)
    | (some ch, rd1) =>
      if ch = 13 then parseLoop n rd1 (i + 1) curIndex curSize acc
      else if ch = 10 then parseLoop n rd1 (i + 1) (i + 1) 0 (acc ++ [curIndex])
      else parseLoop n rd1 (i + 1) curIndex (curSize + 1) acc

/-- `FileLines::parse`: requires an open reader, configures a forward
10 MiB buffer, then scans every byte. -/
def FileLines.parse (fl : FileLines) : Bool × FileLines :=
  match fl.mReader with
  | none => (false, fl)
  | some rd =>
    if rd.isopen = true then
      let rd1 := (rd.setbufferdirection Direction.Right).setbuffersize (10 * 1024 * 1024)
      let res := parseLoop rd.size rd1 0 0 0 fl.mLines
      (res.1, { mLines := res.2.1, mReader := some res.2.2 })
    else (false, fl)

/-- `FileLines::size`: `mLines.size() - 1` in `size_t` arithmetic. -/
def FileLines.size (fl : FileLines) : Nat :=
  wsub fl.mLines.length 1

/-- The trailing carriage-return strip loop of `FileLines::operator[]`
(`while(!result.empty() && result.back() == '\r') result.pop_back()`). -/
def stripTrailingCR (s : List Nat) : List Nat :=
  (s.reverse.dropWhile (fun b => b == 13)).reverse

/-- `FileLines::operator[]`: reads the byte span
`[mLines[index], mLines[index+1] - 1)` through the reader and strips
trailing carriage returns.  The boolean result of `readstring` is
ignored, as in the source.  A null `mReader` would be undefined
behaviour in C++; it is modelled as returning the empty line. -/
def FileLines.getLine (fl : FileLines) (index : Nat) : List Nat × FileLines :=
  match fl.mReader with
  | none => ([], fl)
  | some rd =>
    let lineStart := fl.mLines.getD index 0
    let nextLineStart := fl.mLines.getD (index + 1) 0
    let res := rd.readstring lineStart (wsub (wsub nextLineStart lineStart) 1) []
    (stripTrailingCR res.2.1, { fl with mReader := some res.2.2 })

/-- The open-then-parse flow of `SourceView::loadFile`, on a fresh
`FileLines` with a successfully opened file. -/
def openParse (file : List Nat) : Bool × FileLines :=
  let o := FileLines.empty.open file true true
  if o.1 = true then o.2.1.parse else (false, o.2.1)

/-- Successive `getLine` calls `i, i+1, ..., i+n-1`, threading the reader
state from call to call as a C++ caller would. -/
def linesFrom (fl : FileLines) (i : Nat) : Nat → List (List Nat)
  | 0 => []
  | n + 1 =>
    let res := fl.getLine i
    res.1 :: linesFrom res.2 (i + 1) n

/-- Concatenation of all lines with one line-feed byte inserted between
consecutive lines (the round-trip of §8 of the spec). -/
def joinedLines (fl : FileLines) : List Nat :=
  List.intercalate [10] (linesFrom fl 0 fl.size)

/-- The original file content with all carriage-return bytes removed. -/
def removeCR (file : List Nat) : List Nat :=
  file.filter (fun b => b != 13)

/-- Pure reformulation of the scan loop of `FileLines::parse`, reading the
bytes directly instead of through the buffered reader.  `i` is the
absolute offset of the first byte of `bytes`. -/
def scanLines : List Nat → Nat → Nat → Nat → List Nat
  | [], i, curIndex, curSize =>
    (if 0 < curSize then [curIndex] else []) ++ [i + 1]
  | ch :: rest, i, curIndex, curSize =>
    if ch = 13 then scanLines rest (i + 1) curIndex curSize
    else if ch = 10 then curIndex :: scanLines rest (i + 1) (i + 1) 0
    else scanLines rest (i + 1) curIndex (curSize + 1)

/-- The number of entries `scanLines` appends beyond one per line feed:
1 when the final (unterminated) segment has nonzero scanned length,
0 otherwise.  Mirrors the `curSize` bookkeeping of the scan. -/
def finalFlag : Nat → List Nat → Nat
  | curSize, [] => if 0 < curSize then 1 else 0
  | curSize, ch :: rest =>
    if ch = 13 then finalFlag curSize rest
    else if ch = 10 then finalFlag 0 rest
    else finalFlag (curSize + 1) rest

/-- The suffix of the file after its last line-feed byte (the whole file
when it contains none). -/
def afterLastLF : List Nat → List Nat
  | [] => []
  | b :: rest =>
    if rest.contains 10 then afterLastLF rest
    else if b = 10 then rest
    else b :: rest

/-- The right-hand side of the `finalFlag` characterisation: whether the
scan flushes one extra (unterminated, nonempty) final line. -/
def specFlag (cs : Nat) (bytes : List Nat) : Nat :=
  if bytes.contains 10 = true then
    (if ((afterLastLF bytes).any (fun b => b != 13)) = true then 1 else 0)
  else
    (if 0 < cs ∨ bytes.any (fun b => b != 13) = true then 1 else 0)

/-- A small concrete reader over the 3-byte file `"abc"`, used by the
witnesses. -/
def rcDemo : HandleFileReader := (HandleFileReader.construct [97, 98, 99] true true).1

/-- A concrete reader over the 1-byte file `"\x00"`, used for the
out-of-range counterexample. -/
def rc6 : HandleFileReader := (HandleFileReader.construct [0] true true).1

/-- Operations a caller can perform on an open reader. -/
inductive FROp where
  | setbuffersize (n : Nat)
  | setbufferdirection (d : Direction)
  | read (index size : Nat)
deriving Repr

/-- Runs a sequence of operations against a reader, collecting, for each
`read`, its success flag and the bytes written to the destination. -/
def runOps (r : HandleFileReader) : List FROp → HandleFileReader × List (Bool × List Nat)
  | [] => (r, [])
  | op :: ops =>
    match op with
    | FROp.setbuffersize n => runOps (r.setbuffersize n) ops
    | FROp.setbufferdirection d => runOps (r.setbufferdirection d) ops
    | FROp.read index size =>
      let res := r.read index size
      let rest := runOps res.rdr ops
      (rest.1, (res.ok, res.dest) :: rest.2)

/-- Two reader states that agree on everything except possibly the
buffer-direction hint. -/
def sameCore (a b : HandleFileReader) : Prop :=
  a.file = b.file ∧ a.handleValid = b.handleValid ∧ a.mFileSize = b.mFileSize ∧
  a.mBuffer = b.mBuffer ∧ a.mBufferIndex = b.mBufferIndex ∧ a.mBufferSize = b.mBufferSize

/-- Well-formed reader states: the recorded size is the true file size,
the file fits the 32-bit `DWORD` read-length limits comfortably, and the
cached buffer window is a coherent in-bounds slice of the file.  This
holds for a freshly opened reader and is preserved by every in-range
operation. -/
def HandleFileReader.WF (r : HandleFileReader) : Prop :=
  r.mFileSize = r.file.length ∧
  r.file.length < 2 ^ 32 ∧
  r.mBuffer = (r.file.drop r.mBufferIndex).take r.mBuffer.length ∧
  r.mBufferIndex + r.mBuffer.length ≤ r.file.length

instance (r : HandleFileReader) : Decidable r.WF := by
  unfold HandleFileReader.WF
  infer_instance

/-! ### Arithmetic and list helper lemmas -/

theorem wadd_eq {a b : Nat} (h : a + b < W64) : wadd a b = a + b :=
  Nat.mod_eq_of_lt h

theorem wsub_eq {a b : Nat} (hb : b ≤ a) (ha : a < W64) : wsub a b = a - b := by
  unfold wsub
  rw [Nat.mod_eq_of_lt (lt_of_le_of_lt hb ha)]
  have hbW : b ≤ W64 := le_of_lt (lt_of_le_of_lt hb ha)
  have h1 : a + (W64 - b) = W64 + (a - b) := by omega
  rw [h1, Nat.add_mod_left]
  exact Nat.mod_eq_of_lt (by omega)

theorem W64_pos : 0 < W64 := by unfold W64; positivity

theorem pow32_lt_W64 : (2 : Nat) ^ 32 < W64 := by unfold W64; norm_num

theorem pow32_lt_pow63 : (2 : Nat) ^ 32 < 2 ^ 63 := by norm_num

theorem resizeBytes_length (s : List Nat) (n : Nat) : (resizeBytes s n).length = n := by
  simp only [resizeBytes, List.length_append, List.length_take, List.length_replicate]
  omega

theorem getD_lt {l : List Nat} {a : Nat} (h : a < l.length) : l.getD a 0 = l[a] := by
  rw [List.getD_eq_getElem?_getD, List.getElem?_eq_getElem h]
  rfl

theorem slice_one {l : List Nat} {a : Nat} (h : a < l.length) :
    (l.drop a).take 1 = [l.getD a 0] := by
  rw [getD_lt h, List.drop_eq_getElem_cons h]
  rfl

theorem slice_slice {l : List Nat} {bi blen k s : Nat} (h : k + s ≤ blen) :
    (((l.drop bi).take blen).drop k).take s = (l.drop (bi + k)).take s := by
  rw [List.drop_take, List.take_take, List.drop_drop, min_eq_left (by omega : s ≤ blen - k)]

theorem getD_slice {l : List Nat} {bi blen k : Nat} (hk : k < blen) (hl : bi + k < l.length) :
    ((l.drop bi).take blen).getD k 0 = l.getD (bi + k) 0 := by
  have h1 : k < ((l.drop bi).take blen).length := by
    simp only [List.length_take, List.length_drop]
    omega
  rw [List.getD_eq_getElem?_getD, List.getElem?_eq_getElem h1,
      List.getD_eq_getElem?_getD, List.getElem?_eq_getElem hl]
  simp [List.getElem_take, List.getElem_drop]

/-! ### Correctness of in-range reads on well-formed readers -/

theorem readnobuffer_eq (r : HandleFileReader) (index size : Nat)
    (hopen : r.isopen = true) (hidx : index < 2 ^ 63) :
    r.readnobuffer index size = some ((r.file.drop index).take size) := by
  have him : index % W64 = index := Nat.mod_eq_of_lt (by unfold W64 at *; omega)
  unfold HandleFileReader.readnobuffer
  rw [hopen, if_pos rfl, him, if_neg (by omega)]

theorem refill_ok (r : HandleFileReader) (index size : Nat)
    (hopen : r.isopen = true)
    (hfs : r.mFileSize = r.file.length) (h32 : r.file.length < 2 ^ 32)
    (hbuf : r.mBuffer = (r.file.drop r.mBufferIndex).take r.mBuffer.length)
    (hbound : r.mBufferIndex + r.mBuffer.length ≤ r.file.length)
    (hrange : index + size ≤ r.mFileSize) (hsz : size ≤ r.mBufferSize) :
    (r.refill index size).ok = true ∧
    (r.refill index size).rdr.file = r.file ∧
    (r.refill index size).rdr.handleValid = r.handleValid ∧
    (r.refill index size).rdr.mFileSize = r.mFileSize ∧
    (r.refill index size).rdr.mBufferSize = r.mBufferSize ∧
    (r.refill index size).rdr.mBuffer =
      (r.file.drop (r.refill index size).rdr.mBufferIndex).take
        (r.refill index size).rdr.mBuffer.length ∧
    (r.refill index size).rdr.mBufferIndex + (r.refill index size).rdr.mBuffer.length ≤
      r.file.length ∧
    (r.refill index size).rdr.mBufferIndex ≤ index ∧
    index + size ≤ (r.refill index size).rdr.mBufferIndex +
      (r.refill index size).rdr.mBuffer.length := by
  obtain ⟨f, hv, fs, buf, bi, bs, bd⟩ := r
  simp only [HandleFileReader.isopen] at hopen
  simp only at hfs h32 hbuf hbound hrange hsz
  have hW : fs < W64 := by
    rw [hfs]; exact lt_trans h32 pow32_lt_W64
  have him : index % W64 = index := Nat.mod_eq_of_lt (by omega)
  by_cases hneed : index < bi ∨ wadd index size > wadd bi buf.length
  · -- the requested range is not covered: the window is refilled at `index`
    have hws : wsub fs index = fs - index := wsub_eq (by omega) hW
    set bufferSize := min bs (fs - index) with hbsdef
    have hbsle : bufferSize ≤ f.length - index := by
      have := min_le_right bs (fs - index)
      omega
    have hszbs : size ≤ bufferSize := le_min hsz (by omega : size ≤ fs - index)
    have hrl : (resizeBytes buf bufferSize).length = bufferSize := resizeBytes_length _ _
    have hbl : ((f.drop index).take bufferSize).length = bufferSize := by
      simp only [List.length_take, List.length_drop]
      omega
    have hrnb : HandleFileReader.readnobuffer
        ⟨f, hv, fs, resizeBytes buf bufferSize, index, bs, bd⟩ index
          (resizeBytes buf bufferSize).length =
        some ((f.drop index).take (resizeBytes buf bufferSize).length) :=
      readnobuffer_eq _ index _ (by simpa [HandleFileReader.isopen] using hopen)
        (by have := pow32_lt_pow63; omega)
    have hnil : (resizeBytes buf bufferSize).drop
        ((f.drop index).take bufferSize).length = [] :=
      List.drop_of_length_le (by rw [hrl, hbl])
    have hres : HandleFileReader.refill ⟨f, hv, fs, buf, bi, bs, bd⟩ index size =
        ⟨true, ⟨f, hv, fs, (f.drop index).take bufferSize, index, bs, bd⟩, 1⟩ := by
      unfold HandleFileReader.refill
      rw [if_pos hneed]
      dsimp only
      rw [hws, him, ← hbsdef]
      rw [hrnb]
      dsimp only
      rw [hrl]
      rw [hnil, List.append_nil]
    rw [hres]
    dsimp only
    refine ⟨rfl, rfl, rfl, rfl, rfl, ?_, ?_, by omega, ?_⟩
    · rw [hbl]
    · rw [hbl]; omega
    · rw [hbl]; omega
  · -- the requested range is already covered by the cached window
    have hres : HandleFileReader.refill ⟨f, hv, fs, buf, bi, bs, bd⟩ index size =
        ⟨true, ⟨f, hv, fs, buf, bi, bs, bd⟩, 0⟩ := by
      unfold HandleFileReader.refill
      rw [if_neg hneed]
    push_neg at hneed
    obtain ⟨hge, hcov⟩ := hneed
    have hblW : bi + buf.length < W64 := by
      have := lt_trans h32 pow32_lt_W64
      omega
    rw [wadd_eq (by omega), wadd_eq hblW] at hcov
    rw [hres]
    dsimp only
    exact ⟨rfl, rfl, rfl, rfl, rfl, hbuf, hbound, by omega, by omega⟩

theorem read_ok (r : HandleFileReader) (index size : Nat) (hwf : r.WF)
    (hopen : r.isopen = true) (hrange : index + size ≤ r.mFileSize) :
    (r.read index size).ok = true ∧
    (r.read index size).dest = (r.file.drop index).take size ∧
    (r.read index size).rdr.WF ∧
    (r.read index size).rdr.file = r.file ∧
    (r.read index size).rdr.mFileSize = r.mFileSize ∧
    (r.read index size).rdr.handleValid = r.handleValid ∧
    (r.read index size).rdr.mBufferSize = r.mBufferSize := by
  obtain ⟨hfs, h32, hbuf, hbound⟩ := hwf
  have hW : r.mFileSize < W64 := by
    rw [hfs]; exact lt_trans h32 pow32_lt_W64
  have hadd : wadd index size = index + size := wadd_eq (by omega)
  unfold HandleFileReader.read
  rw [hadd, if_neg (by omega)]
  by_cases hsz : size > r.mBufferSize
  · -- direct unbuffered read, bypassing the buffer
    rw [if_pos hsz, readnobuffer_eq r index size hopen
      (by have := pow32_lt_pow63; omega)]
    exact ⟨rfl, rfl, ⟨hfs, h32, hbuf, hbound⟩, rfl, rfl, rfl, rfl⟩
  · rw [if_neg hsz]
    push_neg at hsz
    obtain ⟨hok, hfile, hhv, hmfs, hmbs, hnbuf, hnbound, hle, hcov⟩ :=
      refill_ok r index size hopen hfs h32 hbuf hbound hrange hsz
    set rf := r.refill index size with hrf
    rw [if_neg (by rw [hok]; simp)]
    have hWF2 : rf.rdr.WF := by
      refine ⟨by rw [hmfs, hfile]; exact hfs, by rw [hfile]; exact h32, ?_, ?_⟩
      · rw [hfile]; exact hnbuf
      · rw [hfile]; exact hnbound
    have hkW : index < W64 := by omega
    have hwsk : wsub index rf.rdr.mBufferIndex = index - rf.rdr.mBufferIndex :=
      wsub_eq hle hkW
    set k := index - rf.rdr.mBufferIndex with hkdef
    have hbik : rf.rdr.mBufferIndex + k = index := by omega
    by_cases h1 : size = 1
    · rw [if_pos h1]
      refine ⟨rfl, ?_, hWF2, hfile, hmfs, hhv, hmbs⟩
      simp only [hwsk]
      have hkl : k < rf.rdr.mBuffer.length := by omega
      have hfl : rf.rdr.mBufferIndex + k < r.file.length := by omega
      have hgd : ((r.file.drop rf.rdr.mBufferIndex).take rf.rdr.mBuffer.length).getD k 0 =
          r.file.getD (rf.rdr.mBufferIndex + k) 0 := getD_slice hkl (by omega)
      rw [hnbuf, hgd, hbik, h1]
      exact (slice_one (by omega : index < r.file.length)).symm
    · rw [if_neg h1]
      refine ⟨rfl, ?_, hWF2, hfile, hmfs, hhv, hmbs⟩
      simp only [hwsk]
      rw [hnbuf, slice_slice (by omega : k + size ≤ rf.rdr.mBuffer.length), hbik]

theorem readchar_ok (r : HandleFileReader) (i : Nat) (hwf : r.WF)
    (hopen : r.isopen = true) (hi : i < r.mFileSize) :
    (r.readchar i).1 = some (r.file.getD i 0) ∧
    (r.readchar i).2.WF ∧
    (r.readchar i).2.isopen = true ∧
    (r.readchar i).2.file = r.file ∧
    (r.readchar i).2.mFileSize = r.mFileSize := by
  obtain ⟨hok, hdest, hwf2, hfile, hmfs, hhv, _⟩ := read_ok r i 1 hwf hopen (by omega)
  have hfl : i < r.file.length := by have := hwf.1; omega
  have hone : (r.read i 1).dest = [r.file.getD i 0] := by
    rw [hdest]; exact slice_one hfl
  unfold HandleFileReader.readchar
  refine ⟨?_, hwf2, ?_, hfile, hmfs⟩
  · dsimp only
    rw [if_pos hok, hone]
    rfl
  · dsimp only
    unfold HandleFileReader.isopen at hopen ⊢
    rw [hhv]
    exact hopen

/-! ### The scan loop computes the pure byte scan -/

theorem parseLoop_ok (n : Nat) :
    ∀ (rd : HandleFileReader) (i ci cs : Nat) (acc : List Nat),
    rd.WF → rd.isopen = true → i + n = rd.mFileSize →
    (parseLoop n rd i ci cs acc).1 = true ∧
    (parseLoop n rd i ci cs acc).2.1 = acc ++ scanLines (rd.file.drop i) i ci cs ∧
    (parseLoop n rd i ci cs acc).2.2.WF ∧
    (parseLoop n rd i ci cs acc).2.2.isopen = true ∧
    (parseLoop n rd i ci cs acc).2.2.file = rd.file ∧
    (parseLoop n rd i ci cs acc).2.2.mFileSize = rd.mFileSize := by
  induction n with
  | zero =>
    intro rd i ci cs acc hwf hopen hn
    have hdrop : rd.file.drop i = [] :=
      List.drop_of_length_le (by have := hwf.1; omega)
    rw [hdrop]
    unfold parseLoop scanLines
    refine ⟨rfl, ?_, hwf, hopen, rfl, rfl⟩
    by_cases hcs : 0 < cs
    · rw [if_pos hcs, if_pos hcs, List.append_assoc]
    · rw [if_neg hcs, if_neg hcs]
      rfl
  | succ n ih =>
    intro rd i ci cs acc hwf hopen hn
    have hi : i < rd.mFileSize := by omega
    obtain ⟨hch, hwf1, hopen1, hfile1, hmfs1⟩ := readchar_ok rd i hwf hopen hi
    have hil : i < rd.file.length := by have := hwf.1; omega
    have hdropi : rd.file.drop i = rd.file.getD i 0 :: rd.file.drop (i + 1) := by

      rw [getD_lt hil]
      exact List.drop_eq_getElem_cons hil
    have hpair : rd.readchar i = (some (rd.file.getD i 0), (rd.readchar i).2) := by
      rw [← hch]
    rw [hdropi]
    unfold parseLoop
    rw [hpair]
    dsimp only
    unfold scanLines
    set b := rd.file.getD i 0 with hb
    set rd1 := (rd.readchar i).2 with hrd1
    by_cases hb13 : b = 13
    · rw [if_pos hb13, if_pos hb13]
      obtain ⟨g1, g2, g3, g4, g5, g6⟩ := ih rd1 (i + 1) ci cs acc hwf1 hopen1 (by omega)
      rw [hfile1] at g2 g5
      exact ⟨g1, g2, g3, g4, g5, by rw [g6, hmfs1]⟩
    · rw [if_neg hb13, if_neg hb13]
      by_cases hb10 : b = 10
      · rw [if_pos hb10, if_pos hb10]
        obtain ⟨g1, g2, g3, g4, g5, g6⟩ := ih rd1 (i + 1) (i + 1) 0 (acc ++ [ci])
          hwf1 hopen1 (by omega)
        rw [hfile1] at g2 g5
        refine ⟨g1, ?_, g3, g4, g5, by rw [g6, hmfs1]⟩
        rw [g2, List.append_assoc]
        rfl
      · rw [if_neg hb10, if_neg hb10]
        obtain ⟨g1, g2, g3, g4, g5, g6⟩ := ih rd1 (i + 1) ci (cs + 1) acc
          hwf1 hopen1 (by omega)
        rw [hfile1] at g2 g5
        exact ⟨g1, g2, g3, g4, g5, by rw [g6, hmfs1]⟩

/-! ### The open-then-parse flow -/

theorem openParse_ok (file : List Nat) (h32 : file.length < 2 ^ 32) :
    (openParse file).1 = true ∧
    (openParse file).2.mLines = scanLines file 0 0 0 ∧
    ∃ rd, (openParse file).2.mReader = some rd ∧ rd.WF ∧ rd.isopen = true ∧
      rd.file = file ∧ rd.mFileSize = file.length := by
  have hstep : openParse file =
      (FileLines.parse ⟨[], some ⟨file, true, file.length, [], 0, 0, Direction.Right⟩⟩) := by
    unfold openParse FileLines.open FileLines.empty FileLines.isopen
      HandleFileReader.construct HandleFileReader.isopen
    rfl
  rw [hstep]
  unfold FileLines.parse
  set rd1 : HandleFileReader :=
    ((⟨file, true, file.length, [], 0, 0, Direction.Right⟩ : HandleFileReader).setbufferdirection
      Direction.Right).setbuffersize (10 * 1024 * 1024) with hrd1
  have hrd1eq : rd1 = ⟨file, true, file.length, [], 0,
      min (10 * 1024 * 1024) file.length, Direction.Right⟩ := by
    rw [hrd1]
    unfold HandleFileReader.setbufferdirection HandleFileReader.setbuffersize
    rfl
  have hwf1 : rd1.WF := by
    rw [hrd1eq]
    exact ⟨rfl, h32, rfl, by simp⟩
  have hopen1 : rd1.isopen = true := by rw [hrd1eq]; rfl
  obtain ⟨g1, g2, g3, g4, g5, g6⟩ :=
    parseLoop_ok ((⟨file, true, file.length, [], 0, 0,
      Direction.Right⟩ : HandleFileReader).size) rd1 0 0 0 [] hwf1 hopen1
      (by rw [hrd1eq]; dsimp only [HandleFileReader.size]; omega)
  dsimp only
  refine ⟨g1, ?_, ?_⟩
  · rw [g2, hrd1eq]
    rfl
  · refine ⟨_, rfl, g3, g4, ?_, ?_⟩
    · rw [g5, hrd1eq]
    · rw [g6, hrd1eq]

/-! ### Counting lines in the pure scan -/

theorem count10_cons (ch : Nat) (rest : List Nat) :
    (ch :: rest).count 10 = rest.count 10 + (if ch = 10 then 1 else 0) := by
  by_cases h : ch = 10
  · simp [h, List.count_cons]
  · simp [List.count_cons, h]

theorem scanLines_length (bytes : List Nat) :
    ∀ i ci cs, (scanLines bytes i ci cs).length = bytes.count 10 + finalFlag cs bytes + 1 := by
  induction bytes with
  | nil =>
    intro i ci cs
    unfold scanLines finalFlag
    by_cases hcs : 0 < cs
    · rw [if_pos hcs, if_pos hcs]
      rfl
    · rw [if_neg hcs, if_neg hcs]
      rfl
  | cons ch rest ih =>
    intro i ci cs
    unfold scanLines finalFlag
    rw [count10_cons]
    by_cases h13 : ch = 13
    · have h10 : ¬ ch = 10 := by omega
      rw [if_pos h13, if_pos h13, if_neg h10, ih]
      omega
    · rw [if_neg h13, if_neg h13]
      by_cases h10 : ch = 10
      · rw [if_pos h10, if_pos h10, if_pos h10, List.length_cons, ih]
        omega
      · rw [if_neg h10, if_neg h10, if_neg h10, ih]
        omega

theorem afterLastLF_no10 (bytes : List Nat) (h : bytes.contains 10 = false) :
    afterLastLF bytes = bytes := by
  induction bytes with
  | nil => rfl
  | cons b rest ih =>
    rw [List.contains_cons] at h
    have h1 : ((10 : Nat) == b) = false := by
      cases hx : (10 : Nat) == b
      · rfl
      · rw [hx] at h; simp at h
    have h2 : rest.contains 10 = false := by
      cases hx : rest.contains 10
      · rfl
      · rw [hx] at h; simp at h
    have hb10 : ¬ b = 10 := by
      intro hb
      rw [hb] at h1
      simp at h1
    unfold afterLastLF
    rw [h2]
    rw [if_neg (by simp), if_neg hb10]

theorem finalFlag_eq (bytes : List Nat) : ∀ cs, finalFlag cs bytes = specFlag cs bytes := by
  induction bytes with
  | nil =>
    intro cs
    unfold finalFlag specFlag
    simp
  | cons b rest ih =>
    intro cs
    have hanyc : (b :: rest).any (fun x => x != 13) =
        ((b != 13) || rest.any (fun x => x != 13)) := List.any_cons
    have hccons : (b :: rest).contains 10 = ((10 : Nat) == b || rest.contains 10) :=
      List.contains_cons
    have haft : afterLastLF (b :: rest) =
        if rest.contains 10 = true then afterLastLF rest
        else if b = 10 then rest else b :: rest := rfl
    have hff : finalFlag cs (b :: rest) =
        if b = 13 then finalFlag cs rest
        else if b = 10 then finalFlag 0 rest
        else finalFlag (cs + 1) rest := rfl
    unfold specFlag
    rw [hff, hccons, hanyc, haft]
    by_cases h13 : b = 13
    · subst h13
      rw [if_pos rfl, ih cs]
      unfold specFlag
      rw [if_neg (show ¬ (13 : Nat) = 10 by omega)]
      simp only [show ((10 : Nat) == 13) = false from rfl, Bool.false_or,
        show ((13 : Nat) != 13) = false from rfl]
      by_cases hc : rest.contains 10 = true
      · simp only [hc, if_true]
      · have hcf : rest.contains 10 = false := by simpa using hc
        rw [afterLastLF_no10 rest hcf]
        simp only [hcf, Bool.false_eq_true, if_false]
    · rw [if_neg h13]
      by_cases h10 : b = 10
      · subst h10
        rw [if_pos rfl, if_pos rfl, ih 0]
        unfold specFlag
        simp only [show ((10 : Nat) == 10) = true from rfl, Bool.true_or, if_pos rfl]
        by_cases hc : rest.contains 10 = true
        · simp only [hc, if_true]
        · have hcf : rest.contains 10 = false := by simpa using hc
          rw [afterLastLF_no10 rest hcf]
          simp only [hcf, Bool.false_eq_true, if_false, if_true, lt_self_iff_false, false_or]
      · rw [if_neg h10, if_neg h10, ih (cs + 1)]
        unfold specFlag
        have hbeq : ((10 : Nat) == b) = false := by
          cases hx : (10 : Nat) == b
          · rfl
          · simp at hx
            exact absurd hx.symm h10
        have hb13 : (b != 13) = true := bne_iff_ne.mpr h13
        rw [hbeq, Bool.false_or, hb13, Bool.true_or]
        by_cases hc : rest.contains 10 = true
        · simp only [hc, if_true]
        · have hcf : rest.contains 10 = false := by simpa using hc
          simp only [hcf, Bool.false_eq_true, if_false]
          rw [if_pos (Or.inl (Nat.succ_pos cs)), if_pos (Or.inr trivial)]

/-! ### Structure of the offset table produced by the scan -/

theorem scanLines_table (bytes : List Nat) :
    ∀ i ci cs, ci ≤ i →
    (scanLines bytes i ci cs).Pairwise (· < ·) ∧
    (∀ x ∈ scanLines bytes i ci cs, ci ≤ x) ∧
    (scanLines bytes i ci cs).getLast? = some (i + bytes.length + 1) ∧
    (∀ x ∈ (scanLines bytes i ci cs).dropLast, x ≤ i + bytes.length) := by
  induction bytes with
  | nil =>
    intro i ci cs hci
    unfold scanLines
    by_cases hcs : 0 < cs
    · rw [if_pos hcs]
      have hlist : ([ci] ++ [i + 1] : List Nat) = [ci, i + 1] := rfl
      rw [hlist]
      refine ⟨?_, ?_, rfl, ?_⟩
      · refine List.pairwise_cons.mpr ⟨?_, by simp⟩
        intro y hy
        simp only [List.mem_singleton] at hy
        omega
      · intro x hx
        simp only [List.mem_cons, List.mem_singleton, List.not_mem_nil,
          or_false] at hx
        rcases hx with h | h <;> omega
      · intro x hx
        have hdl : ([ci, i + 1] : List Nat).dropLast = [ci] := rfl
        rw [hdl] at hx
        simp only [List.mem_singleton] at hx
        simp only [List.length_nil]
        omega
    · rw [if_neg hcs]
      have hlist : ([] ++ [i + 1] : List Nat) = [i + 1] := rfl
      rw [hlist]
      refine ⟨by simp, ?_, rfl, ?_⟩
      · intro x hx
        simp only [List.mem_singleton] at hx
        omega
      · intro x hx
        simp at hx
  | cons b rest ih =>
    intro i ci cs hci
    unfold scanLines
    by_cases h13 : b = 13
    · rw [if_pos h13]
      obtain ⟨p1, p2, p3, p4⟩ := ih (i + 1) ci cs (by omega)
      refine ⟨p1, p2, ?_, ?_⟩
      · rw [p3, List.length_cons]
        congr 1
        omega
      · intro x hx
        have := p4 x hx
        rw [List.length_cons]
        omega
    · rw [if_neg h13]
      by_cases h10 : b = 10
      · rw [if_pos h10]
        obtain ⟨p1, p2, p3, p4⟩ := ih (i + 1) (i + 1) 0 (le_refl _)
        have hL : scanLines rest (i + 1) (i + 1) 0 ≠ [] := by
          intro hnil
          rw [hnil] at p3
          simp at p3
        refine ⟨?_, ?_, ?_, ?_⟩
        · rw [List.pairwise_cons]
          refine ⟨fun x hx => ?_, p1⟩
          have := p2 x hx
          omega
        · intro x hx
          rcases List.mem_cons.mp hx with h | h
          · omega
          · have := p2 x h
            omega
        · obtain ⟨y, ys, hys⟩ := List.exists_cons_of_ne_nil hL
          rw [hys, List.getLast?_cons_cons, ← hys, p3, List.length_cons]
          congr 1
          omega
        · intro x hx
          rw [List.dropLast_cons_of_ne_nil hL] at hx
          rw [List.length_cons]
          rcases List.mem_cons.mp hx with h | h
          · omega
          · have := p4 x h
            omega
      · rw [if_neg h10]
        obtain ⟨p1, p2, p3, p4⟩ := ih (i + 1) ci (cs + 1) (by omega)
        refine ⟨p1, p2, ?_, ?_⟩
        · rw [p3, List.length_cons]
          congr 1
          omega
        · intro x hx
          have := p4 x hx
          rw [List.length_cons]
          omega

theorem finalFlag_spec (file : List Nat) :
    finalFlag 0 file =
      if ((afterLastLF file).any (fun b => b != 13)) = true then 1 else 0 := by
  rw [finalFlag_eq]
  unfold specFlag
  by_cases hc : file.contains 10 = true
  · rw [if_pos hc]
  · rw [if_neg hc, afterLastLF_no10 file (by simpa using hc)]
    simp

/-- Per-index consequences of `scanLines_table` for the table built by a
whole-file scan: at least one entry (the sentinel), strictly increasing
entries, all non-final entries at most the file size, and every entry at
most the file size + 1 (the sentinel's value). -/
theorem table_facts (file : List Nat) :
    1 ≤ (scanLines file 0 0 0).length ∧
    (∀ j, j + 1 < (scanLines file 0 0 0).length →
      (scanLines file 0 0 0).getD j 0 < (scanLines file 0 0 0).getD (j + 1) 0) ∧
    (∀ j, j + 1 < (scanLines file 0 0 0).length →
      (scanLines file 0 0 0).getD j 0 ≤ file.length) ∧
    (∀ j, j < (scanLines file 0 0 0).length →
      (scanLines file 0 0 0).getD j 0 ≤ file.length + 1) := by
  obtain ⟨p1, p2, p3, p4⟩ := scanLines_table file 0 0 0 (le_refl 0)
  have hne : scanLines file 0 0 0 ≠ [] := by
    intro h
    rw [h] at p3
    simp at p3
  have hlen : 1 ≤ (scanLines file 0 0 0).length := by
    cases hc : scanLines file 0 0 0 with
    | nil => exact absurd hc hne
    | cons y ys => simp [hc]
  have hlast : (scanLines file 0 0 0).getLast hne = file.length + 1 := by
    have h := List.getLast?_eq_getLast (scanLines file 0 0 0) hne
    rw [p3] at h
    have := Option.some.inj h
    omega
  have hdrop : ∀ j (h : j + 1 < (scanLines file 0 0 0).length),
      (scanLines file 0 0 0).getD j 0 ≤ file.length := by
    intro j hj
    have hjd : j < (scanLines file 0 0 0).dropLast.length := by
      rw [List.length_dropLast]
      omega
    have hjl : j < (scanLines file 0 0 0).length := by omega
    have hmem : (scanLines file 0 0 0)[j] ∈ (scanLines file 0 0 0).dropLast := by
      have := List.getElem_mem hjd
      rw [List.getElem_dropLast] at this
      exact this
    have := p4 _ hmem
    rw [getD_lt hjl]
    omega
  refine ⟨hlen, ?_, hdrop, ?_⟩
  · intro j hj
    have hjl : j < (scanLines file 0 0 0).length := by omega
    rw [getD_lt hjl, getD_lt hj]
    exact (List.pairwise_iff_getElem.mp p1) j (j + 1) hjl hj (by omega)
  · intro j hj
    by_cases hj1 : j + 1 < (scanLines file 0 0 0).length
    · have := hdrop j hj1
      omega
    · have hjlast : j = (scanLines file 0 0 0).length - 1 := by omega
      subst hjlast
      have hgl := List.getLast_eq_getElem (scanLines file 0 0 0) hne
      rw [hlast] at hgl
      rw [getD_lt hj]
      exact le_of_eq hgl.symm

set_option maxRecDepth 4000 in
/-- C4: for every successful parse and every index `i` with
`0 <= i < lineCount()`, `getLine(i)` returns exactly the file bytes of the
half-open span from `offsetTable[i]` to `offsetTable[i+1] - 1`, with any
trailing carriage-return bytes stripped from the result. -/
theorem C4_getLine_span (file : List Nat) (h32 : file.length < 2 ^ 32) (i : Nat)
    (hi : i < (openParse file).2.size) :
    ((openParse file).2.getLine i).1 =
      stripTrailingCR ((file.drop ((openParse file).2.mLines.getD i 0)).take
        ((openParse file).2.mLines.getD (i + 1) 0 - 1 -
          (openParse file).2.mLines.getD i 0)) := by
  obtain ⟨hok, hml, rd, hrd, hwf, hopen, hfile, hmfs⟩ := openParse_ok file h32
  obtain ⟨hlen, hmono, hble, hble1⟩ := table_facts file
  have hlenW : (scanLines file 0 0 0).length < W64 := by
    have hsl := scanLines_length file 0 0 0
    have hcle : file.count 10 ≤ file.length := List.count_le_length _ _
    have hfl1 : finalFlag 0 file ≤ 1 := by
      rw [finalFlag_spec]
      split_ifs <;> omega
    have hW : 2 ^ 32 + 2 < W64 := by unfold W64; norm_num
    omega
  have hsz : (openParse file).2.size = (scanLines file 0 0 0).length - 1 := by
    unfold FileLines.size
    rw [hml]
    exact wsub_eq hlen hlenW
  rw [hsz] at hi
  have hi2 : i + 1 < (scanLines file 0 0 0).length := by omega
  have hst : (scanLines file 0 0 0).getD i 0 < (scanLines file 0 0 0).getD (i + 1) 0 :=
    hmono i hi2
  have hsle : (scanLines file 0 0 0).getD i 0 ≤ file.length := hble i hi2
  have htle : (scanLines file 0 0 0).getD (i + 1) 0 ≤ file.length + 1 := hble1 (i + 1) hi2
  have htW : (scanLines file 0 0 0).getD (i + 1) 0 < W64 := by
    have := pow32_lt_W64
    omega
  have hw1 : wsub ((scanLines file 0 0 0).getD (i + 1) 0) ((scanLines file 0 0 0).getD i 0) =
      (scanLines file 0 0 0).getD (i + 1) 0 - (scanLines file 0 0 0).getD i 0 :=
    wsub_eq (le_of_lt hst) htW
  have hw2 : wsub ((scanLines file 0 0 0).getD (i + 1) 0 - (scanLines file 0 0 0).getD i 0) 1 =
      (scanLines file 0 0 0).getD (i + 1) 0 - (scanLines file 0 0 0).getD i 0 - 1 :=
    wsub_eq (by omega) (by omega)
  -- the byte span requested from the reader
  obtain ⟨rok, rdest, _, _, _, _, _⟩ := read_ok rd ((scanLines file 0 0 0).getD i 0)
    ((scanLines file 0 0 0).getD (i + 1) 0 - (scanLines file 0 0 0).getD i 0 - 1)
    hwf hopen (by rw [hmfs]; omega)
  unfold FileLines.getLine
  rw [hrd]
  dsimp only
  rw [hml, hw1, hw2]
  unfold HandleFileReader.readstring
  dsimp only
  rw [rdest, hfile]
  have hdl : ((file.drop ((scanLines file 0 0 0).getD i 0)).take
      ((scanLines file 0 0 0).getD (i + 1) 0 - (scanLines file 0 0 0).getD i 0 - 1)).length =
      (scanLines file 0 0 0).getD (i + 1) 0 - (scanLines file 0 0 0).getD i 0 - 1 := by
    simp only [List.length_take, List.length_drop]
    omega
  have hnil : (resizeBytes []
      ((scanLines file 0 0 0).getD (i + 1) 0 - (scanLines file 0 0 0).getD i 0 - 1)).drop
      ((scanLines file 0 0 0).getD (i + 1) 0 - (scanLines file 0 0 0).getD i 0 - 1)
      = [] :=
    List.drop_of_length_le (le_of_eq (resizeBytes_length _ _))
  have harg : (scanLines file 0 0 0).getD (i + 1) 0 - 1 - (scanLines file 0 0 0).getD i 0 =
      (scanLines file 0 0 0).getD (i + 1) 0 - (scanLines file 0 0 0).getD i 0 - 1 := by
    omega
  rw [hdl, hnil, List.append_nil, harg]

/-- C1: for the file whose bytes are two line feeds, open and parse
succeed and `lineCount()` is 2 and `getLine(0)` is the empty string, but
`getLine(1)` returns the line-feed byte `"\n"` instead of the empty
string claimed by the specification: the sentinel `filesize + 1` makes
the final line's span include its terminating line feed whenever the
file ends with one. -/
theorem C1_trailing_newline_eval :
    (openParse [10, 10]).1 = true ∧
    (openParse [10, 10]).2.size = 2 ∧
    ((openParse [10, 10]).2.getLine 0).1 = [] ∧
    (((openParse [10, 10]).2.getLine 0).2.getLine 1).1 = [10] := by
  decide

/-- C2: for the file whose bytes are `"\r\n"`, parse succeeds with one
line whose text is `"\r\n"` itself, so the concatenation of all lines is
`"\r\n"`, which differs from the file content with carriage returns
removed (`"\n"`): the round-trip property of the specification fails on
the code. -/
theorem C2_roundtrip_eval :
    (openParse [13, 10]).1 = true ∧
    (openParse [13, 10]).2.size = 1 ∧
    joinedLines (openParse [13, 10]).2 = [13, 10] ∧
    removeCR [13, 10] = [10] ∧
    joinedLines (openParse [13, 10]).2 ≠ removeCR [13, 10] := by
  decide

/-- C3: for every file on which parse succeeds, `lineCount()` equals the
number of line-feed bytes in the file, plus one exactly when the suffix
after the last line feed contains a byte other than carriage return
(i.e. the file ends with a non-empty unterminated final line after
carriage returns are dropped); an empty file yields 0. -/
theorem C3_lineCount_formula (file : List Nat) (h32 : file.length < 2 ^ 32) :
    (openParse file).1 = true ∧
    (openParse file).2.size =
      file.count 10 +
        (if ((afterLastLF file).any (fun b => b != 13)) = true then 1 else 0) := by
  obtain ⟨hok, hml, rd, hrd, hwf, hopen, hfile, hmfs⟩ := openParse_ok file h32
  refine ⟨hok, ?_⟩
  unfold FileLines.size
  rw [hml]
  have hsl := scanLines_length file 0 0 0
  have hff := finalFlag_spec file
  have hcle : file.count 10 ≤ file.length := List.count_le_length _ _
  have hW : 2 ^ 32 + 2 < W64 := by unfold W64; norm_num
  have hfl1 : finalFlag 0 file ≤ 1 := by
    rw [hff]
    split_ifs <;> omega
  have hlenW : file.count 10 + finalFlag 0 file + 1 < W64 := by omega
  rw [hsl, @wsub_eq (file.count 10 + finalFlag 0 file + 1) 1 (by omega) hlenW, hff]
  omega

/-- Witness for C3: the empty file yields 0 lines, and the file
`"\na"` yields 2 lines (one line feed plus a non-empty unterminated
final line). -/
theorem C3_lineCount_formula_witness :
    (openParse ([] : List Nat)).2.size = 0 ∧ (openParse [10, 97]).2.size = 2 :=
  ⟨((C3_lineCount_formula [] (by decide)).2).trans (by decide),
   ((C3_lineCount_formula [10, 97] (by decide)).2).trans (by decide)⟩

/-- Witness for C4: on the file `"a\r\nb"`, `getLine(0)` equals the
stripped span between the first two offset-table entries. -/
theorem C4_getLine_span_witness :
    ((openParse [97, 13, 10, 98]).2.getLine 0).1 =
      stripTrailingCR (([97, 13, 10, 98].drop
          ((openParse [97, 13, 10, 98]).2.mLines.getD 0 0)).take
        ((openParse [97, 13, 10, 98]).2.mLines.getD (0 + 1) 0 - 1 -
          (openParse [97, 13, 10, 98]).2.mLines.getD 0 0)) :=
  C4_getLine_span [97, 13, 10, 98] (by decide) 0 (by decide)

/-! ### Claims about the reader -/

theorem setbuffersize_wf (r : HandleFileReader) (n : Nat) (hwf : r.WF) :
    (r.setbuffersize n).WF ∧ (r.setbuffersize n).isopen = r.isopen ∧
    (r.setbuffersize n).file = r.file ∧ (r.setbuffersize n).mFileSize = r.mFileSize := by
  obtain ⟨h1, h2, h3, h4⟩ := hwf
  unfold HandleFileReader.setbuffersize HandleFileReader.WF HandleFileReader.isopen
  exact ⟨⟨h1, h2, h3, h4⟩, rfl, rfl, rfl⟩

/-- C5: on a well-formed open reader, for every in-range request and
every buffer-size configuration (the current one, or any one installed
by `setbuffersize`), the buffered `read` succeeds and writes exactly the
bytes a direct unbuffered positioned read of the same range returns. -/
theorem C5_buffered_unbuffered_agree (r : HandleFileReader) (index size : Nat)
    (hwf : r.WF) (hopen : r.isopen = true) (hrange : index + size ≤ r.size) :
    (r.read index size).ok = true ∧
    r.readnobuffer index size = some ((r.file.drop index).take size) ∧
    (r.read index size).dest = (r.file.drop index).take size ∧
    (∀ n, ((r.setbuffersize n).read index size).ok = true ∧
      ((r.setbuffersize n).read index size).dest = (r.file.drop index).take size) := by
  obtain ⟨hok, hdest, _, _, _, _, _⟩ := read_ok r index size hwf hopen hrange
  have hnb : r.readnobuffer index size = some ((r.file.drop index).take size) :=
    readnobuffer_eq r index size hopen
      (by have := pow32_lt_pow63; have h1 := hwf.1; have h2 := hwf.2.1
          unfold HandleFileReader.size at hrange; omega)
  refine ⟨hok, hnb, hdest, ?_⟩
  intro n
  obtain ⟨hwf2, hop2, hfi2, hfs2⟩ := setbuffersize_wf r n hwf
  obtain ⟨hok2, hdest2, _, _, _, _, _⟩ := read_ok (r.setbuffersize n) index size hwf2
    (by rw [hop2]; exact hopen)
    (by rw [hfs2]; unfold HandleFileReader.size at hrange; exact hrange)
  exact ⟨hok2, by rw [hdest2, hfi2]⟩

/-- Witness for C5: a concrete in-range read on the demo reader, with
and without a configured buffer. -/
theorem C5_buffered_unbuffered_agree_witness :
    (rcDemo.read 1 2).ok = true ∧
    rcDemo.readnobuffer 1 2 = some ((rcDemo.file.drop 1).take 2) ∧
    (rcDemo.read 1 2).dest = (rcDemo.file.drop 1).take 2 ∧
    ((rcDemo.setbuffersize 2).read 1 2).ok = true ∧
    ((rcDemo.setbuffersize 2).read 1 2).dest = (rcDemo.file.drop 1).take 2 := by
  obtain ⟨a, b, c, d⟩ :=
    C5_buffered_unbuffered_agree rcDemo 1 2 (by decide) (by decide) (by decide)
  exact ⟨a, b, c, (d 2).1, (d 2).2⟩

/-- C6 counterexample: the out-of-range guard uses wrapping `uint64_t`
addition, so the request `offset = 2^64 - 1`, `length = 2` on a 1-byte
file has `offset + length > size()` mathematically, yet the guard passes
and a positioned I/O attempt is made (`io = 1`): the rejection does not
happen before I/O, refuting the claim as stated.  (The call still ends
up returning `false`, because `SetFilePointerEx` rejects the negative
sign-extended position.) -/
theorem C6_overflow_counterexample :
    (W64 - 1) + 2 > rc6.size ∧
    (rc6.read (W64 - 1) 2).io ≠ 0 ∧
    (rc6.read (W64 - 1) 2).ok = false := by
  decide

/-- C6 (amended): for every buffer configuration and every read request
whose offset + length exceeds `size()` without overflowing the 64-bit
sum (`offset + length < 2^64`), `read` returns `false`, leaves the state
unchanged, writes nothing, and attempts no I/O. -/
theorem C6_range_rejected_no_io (r : HandleFileReader) (index size : Nat)
    (hnw : index + size < W64) (hrange : index + size > r.size) :
    r.read index size = ⟨false, r, [], 0⟩ := by
  unfold HandleFileReader.read
  unfold HandleFileReader.size at hrange
  rw [wadd_eq hnw, if_pos hrange]

/-- Witness for C6 (amended): a concrete non-overflowing out-of-range
request is rejected with no I/O. -/
theorem C6_range_rejected_no_io_witness :
    rc6.read 5 0 = ⟨false, rc6, [], 0⟩ :=
  C6_range_rejected_no_io rc6 5 0 (by decide) (by decide)

/-- C9: on a well-formed open reader, a zero-length read succeeds for
every offset up to and including `size()`, and fails for every 64-bit
offset strictly greater than `size()`. -/
theorem C9_zero_length_read (r : HandleFileReader) (offset : Nat) :
    (r.WF → r.isopen = true → offset ≤ r.size → (r.read offset 0).ok = true) ∧
    (offset < W64 → offset > r.size → (r.read offset 0).ok = false) := by
  constructor
  · intro hwf hopen hle
    unfold HandleFileReader.size at hle
    exact (read_ok r offset 0 hwf hopen (by omega)).1
  · intro hW hgt
    unfold HandleFileReader.size at hgt
    unfold HandleFileReader.read
    rw [wadd_eq (by omega), if_pos (by omega)]

/-- Witness for C9: on the 3-byte demo reader, a zero-length read at
offset 3 (= `size()`) succeeds and at offset 4 fails. -/
theorem C9_zero_length_read_witness :
    (rcDemo.read 3 0).ok = true ∧ (rcDemo.read 4 0).ok = false :=
  ⟨(C9_zero_length_read rcDemo 3).1 (by decide) (by decide) (by decide),
   (C9_zero_length_read rcDemo 4).2 (by decide) (by decide)⟩

theorem read_dest_le (r : HandleFileReader) (index size : Nat) :
    (r.read index size).dest.length ≤ size ∧
    ((r.read index size).ok = false → (r.read index size).dest = []) := by
  unfold HandleFileReader.read
  by_cases h1 : wadd index size > r.mFileSize
  · rw [if_pos h1]
    exact ⟨by simp, fun _ => rfl⟩
  · rw [if_neg h1]
    by_cases h2 : size > r.mBufferSize
    · rw [if_pos h2]
      cases hnb : r.readnobuffer index size with
      | none => exact ⟨by simp, fun _ => rfl⟩
      | some bytes =>
        have hb : bytes.length ≤ size := by
          unfold HandleFileReader.readnobuffer at hnb
          by_cases ho : r.isopen = true
          · rw [if_pos ho] at hnb
            by_cases hx : 2 ^ 63 ≤ index % W64
            · rw [if_pos hx] at hnb
              exact absurd hnb (by simp)
            · rw [if_neg hx] at hnb
              have hbe := Option.some.inj hnb
              rw [← hbe]
              simp only [List.length_take]
              exact min_le_left _ _
          · rw [if_neg ho] at hnb
            exact absurd hnb (by simp)
        refine ⟨hb, ?_⟩
        intro h
        simp at h
    · rw [if_neg h2]
      dsimp only
      by_cases h3 : (r.refill index size).ok = false
      · rw [if_pos h3]
        exact ⟨by simp, fun _ => rfl⟩
      · rw [if_neg h3]
        by_cases h4 : size = 1
        · rw [if_pos h4]
          refine ⟨by simp [h4], ?_⟩
          intro h
          simp at h
        · rw [if_neg h4]
          refine ⟨?_, ?_⟩
          · simp only [List.length_take]
            exact min_le_left _ _
          · intro h
            simp at h

/-- C10: after every `readstring(index, size, str)` call, the
destination string has length exactly `size`; on a failed read the
destination is not restored: it is left as the resized (truncated or
zero-padded) version of its previous value. -/
theorem C10_readstring_length (r : HandleFileReader) (index size : Nat) (old : List Nat) :
    (r.readstring index size old).2.1.length = size ∧
    ((r.readstring index size old).1 = false →
      (r.readstring index size old).2.1 = resizeBytes old size) := by
  obtain ⟨hle, hfail⟩ := read_dest_le r index size
  unfold HandleFileReader.readstring
  dsimp only
  constructor
  · rw [List.length_append, List.length_drop, resizeBytes_length]
    omega
  · intro h
    rw [hfail h]
    simp

/-- Witness for C10: a failing `readstring` on the demo reader leaves
the destination as the resized previous value (length 2), which differs
from the original destination. -/
theorem C10_readstring_length_witness :
    (rcDemo.readstring 10 2 [9]).2.1.length = 2 ∧
    (rcDemo.readstring 10 2 [9]).2.1 = resizeBytes [9] 2 ∧
    resizeBytes [9] 2 ≠ [9] :=
  ⟨(C10_readstring_length rcDemo 10 2 [9]).1,
   (C10_readstring_length rcDemo 10 2 [9]).2 (by decide),
   by decide⟩

/-- C7: `open` never partially succeeds: on a fresh `FileLines`, if the
file cannot be opened (`openOk = false`) or its size cannot be
determined (`sizeOk = false`), `open` returns `false`, `isopen()` is
`false` afterwards, and no OS handle is left open (the leaked-handle
flag is `false`, because the size-failure path runs `CloseHandle`). -/
theorem C7_open_no_partial (fl : FileLines) (file : List Nat) (openOk sizeOk : Bool)
    (hfresh : fl.isopen = false) (hfail : openOk = false ∨ sizeOk = false) :
    (fl.open file openOk sizeOk).1 = false ∧
    (fl.open file openOk sizeOk).2.1.isopen = false ∧
    (fl.open file openOk sizeOk).2.2 = false := by
  have hc : (HandleFileReader.construct file openOk sizeOk).1.handleValid = false ∧
      (HandleFileReader.construct file openOk sizeOk).2 = false := by
    unfold HandleFileReader.construct
    rcases hfail with h | h
    · rw [if_neg (by rw [h]; simp)]
      exact ⟨rfl, rfl⟩
    · by_cases ho : openOk = true
      · rw [if_pos ho, if_neg (by rw [h]; simp)]
        exact ⟨rfl, rfl⟩
      · rw [if_neg ho]
        exact ⟨rfl, rfl⟩
  unfold FileLines.open
  rw [hfresh, if_neg (by simp)]
  dsimp only
  refine ⟨?_, ?_, hc.2⟩
  · unfold HandleFileReader.isopen
    exact hc.1
  · unfold FileLines.isopen
    dsimp only
    unfold HandleFileReader.isopen
    exact hc.1

/-- Witness for C7: opening a fresh `FileLines` when the size query
fails returns `false` with the handle closed and nothing leaked. -/
theorem C7_open_no_partial_witness :
    (FileLines.empty.open [1] true false).1 = false ∧
    (FileLines.empty.open [1] true false).2.1.isopen = false ∧
    (FileLines.empty.open [1] true false).2.2 = false :=
  C7_open_no_partial FileLines.empty [1] true false (by decide) (Or.inr rfl)

theorem read_dir (f : List Nat) (v : Bool) (fs : Nat) (buf : List Nat) (bi bs : Nat)
    (d : Direction) (index size : Nat) :
    HandleFileReader.read ⟨f, v, fs, buf, bi, bs, d⟩ index size =
      { ok := (HandleFileReader.read ⟨f, v, fs, buf, bi, bs, Direction.Right⟩ index size).ok,
        rdr := { (HandleFileReader.read ⟨f, v, fs, buf, bi, bs,
            Direction.Right⟩ index size).rdr with mBufferDirection := d },
        dest := (HandleFileReader.read ⟨f, v, fs, buf, bi, bs,
          Direction.Right⟩ index size).dest,
        io := (HandleFileReader.read ⟨f, v, fs, buf, bi, bs,
          Direction.Right⟩ index size).io } := by
  unfold HandleFileReader.read HandleFileReader.refill HandleFileReader.readnobuffer
    HandleFileReader.isopen
  dsimp only
  split_ifs <;> rfl

theorem read_core (a b : HandleFileReader) (h : sameCore a b) (index size : Nat) :
    (a.read index size).ok = (b.read index size).ok ∧
    (a.read index size).dest = (b.read index size).dest ∧
    sameCore (a.read index size).rdr (b.read index size).rdr := by
  obtain ⟨f, v, fs, buf, bi, bs, bd⟩ := a
  obtain ⟨f2, v2, fs2, buf2, bi2, bs2, bd2⟩ := b
  unfold sameCore at h
  obtain ⟨h1, h2, h3, h4, h5, h6⟩ := h
  dsimp only at h1 h2 h3 h4 h5 h6
  subst h1
  subst h2
  subst h3
  subst h4
  subst h5
  subst h6
  rw [read_dir f v fs buf bi bs bd index size, read_dir f v fs buf bi bs bd2 index size]
  exact ⟨rfl, rfl, ⟨rfl, rfl, rfl, rfl, rfl, rfl⟩⟩

theorem setbuffersize_core (a b : HandleFileReader) (h : sameCore a b) (n : Nat) :
    sameCore (a.setbuffersize n) (b.setbuffersize n) := by
  obtain ⟨h1, h2, h3, h4, h5, h6⟩ := h
  unfold HandleFileReader.setbuffersize
  exact ⟨h1, h2, h3, h4, h5, by dsimp only; rw [h3]⟩

theorem setbufferdirection_core (a b : HandleFileReader) (h : sameCore a b) (d : Direction) :
    sameCore (a.setbufferdirection d) (b.setbufferdirection d) := by
  obtain ⟨h1, h2, h3, h4, h5, h6⟩ := h
  unfold HandleFileReader.setbufferdirection
  exact ⟨h1, h2, h3, h4, h5, h6⟩

theorem runOps_core (ops : List FROp) :
    ∀ a b, sameCore a b →
    (runOps a ops).2 = (runOps b ops).2 ∧ sameCore (runOps a ops).1 (runOps b ops).1 := by
  induction ops with
  | nil =>
    intro a b h
    exact ⟨rfl, h⟩
  | cons op ops ih =>
    intro a b h
    cases op with
    | setbuffersize n =>
      simp only [runOps]
      exact ih _ _ (setbuffersize_core a b h n)
    | setbufferdirection d =>
      simp only [runOps]
      exact ih _ _ (setbufferdirection_core a b h d)
    | read index size =>
      simp only [runOps]
      obtain ⟨hok, hdest, hcore⟩ := read_core a b h index size
      obtain ⟨ih1, ih2⟩ := ih _ _ hcore
      exact ⟨by rw [hok, hdest, ih1], ih2⟩

/-- C8: the buffer-direction setting has no observable effect: running
any sequence of `setbuffersize`, `setbufferdirection` and `read`
operations from states differing only in the configured direction
produces identical read results and output bytes. -/
theorem C8_direction_no_effect (ops : List FROp) (r : HandleFileReader) (d1 d2 : Direction) :
    (runOps (r.setbufferdirection d1) ops).2 = (runOps (r.setbufferdirection d2) ops).2 :=
  (runOps_core ops (r.setbufferdirection d1) (r.setbufferdirection d2)
    (by unfold sameCore HandleFileReader.setbufferdirection
        exact ⟨rfl, rfl, rfl, rfl, rfl, rfl⟩)).1

end SourceView
